import Mathlib

/-!
Verification of the FJE-PLUS JSON visualiser (`src/fje_plus.py`).

The development shallowly embeds the core of the program:
  * `JValue`            — parsed JSON values (numbers modelled as integers);
  * `pyStr` / `pyRepr`  — Python's `str`/`repr` textual forms, as used by the
                          f-strings in the source (quote escaping inside
                          strings is not modelled; no claim depends on it);
  * `Node`              — the Component tree (Container / Leaf); the four
                          concrete classes share this one shape, the style
                          only changes how a node is drawn;
  * `buildTree`         — `build_tree` (lines 169-193); the Python
                          `list(data.keys())[0]` raises `IndexError` on an
                          empty dict, modelled by returning `none`;
  * `treeDraw`          — `TreeContainer.draw` / `TreeLeaf.draw`;
  * `rectDraw`          — `RectangleContainer.draw` / `RectangleLeaf.draw`,
                          emitting one `RLine` event per `print` paired with a
                          completion flag: a leaf whose raw name has no Python
                          `len()` (int/float/bool/None, stored unchanged by
                          `create_leaf` on lines 187/193) makes line 128 raise
                          `TypeError`, printing nothing and aborting the draw;
                          `renderRLine` realises each event's printed string,
                          computing the leaf fill width from `len(self.name)`
                          of the raw value (element count for a list name);
  * `displayRectEvents` / `displayTreeLines` — `display_tree` (196-207), the
                          Rectangle side threading the abort;
  * `iterRun`           — `ComponentIterator` (16-29).
-/

/-- Parsed JSON values.  Object member lists mirror Python dicts: keys are
unique and in insertion order.  Numbers are modelled as integers. -/
inductive JValue : Type
| obj  : List (String × JValue) → JValue
| arr  : List JValue → JValue
| str  : String → JValue
| num  : Int → JValue
| bool : Bool → JValue
| null : JValue
deriving Inhabited

mutual

/-- Python `repr` of a JSON value (element form used inside list/dict
display; string quote escaping not modelled). -/
def pyRepr : JValue → String
| .str s => "\x27" ++ s ++ "\x27"
| .num n => toString n
| .bool b => if b then "True" else "False"
| .null => "None"
| .arr xs => "[" ++ pyReprList xs ++ "]"
| .obj kvs => "\x7b" ++ pyReprDict kvs ++ "\x7d"

/-- Comma-separated `repr`s of list elements. -/
def pyReprList : List JValue → String
| [] => ""
| [x] => pyRepr x
| x :: y :: rest => pyRepr x ++ ", " ++ pyReprList (y :: rest)

/-- Comma-separated `repr`s of dict entries. -/
def pyReprDict : List (String × JValue) → String
| [] => ""
| [(k, v)] => "\x27" ++ k ++ "\x27: " ++ pyRepr v
| (k, v) :: p :: rest => "\x27" ++ k ++ "\x27: " ++ pyRepr v ++ ", " ++ pyReprDict (p :: rest)

end

/-- Python `str` of a JSON value (as interpolated by the f-strings of the
source); differs from `repr` only on strings. -/
def pyStr : JValue → String
| .str s => s
| v => pyRepr v

/-- `isinstance(v, dict) or isinstance(v, list)` (lines 178, 184). -/
def isObjOrArr : JValue → Bool
| .obj _ => true
| .arr _ => true
| _ => false

/-- Python `len(x)`: defined for strings (character count), lists
(element count) and dicts (key count); calling it on an int, float,
bool or None raises `TypeError`, modelled as `none`. -/
def pyLen : JValue → Option Nat
| .str s => some s.length
| .arr xs => some xs.length
| .obj kvs => some kvs.length
| _ => none

/-- The Component tree.  `TreeContainer`/`RectangleContainer` both carry
`name`, `level`, `children`; `TreeLeaf`/`RectangleLeaf` carry `name`.
The style pair is determined by the factory, not by the node shape, so a
single inductive represents both families.  A container name is always a
dict key, hence a string; a leaf name is whatever Python value was passed
to `create_leaf` — a formatted string (lines 181, 189), a raw array item
(line 187) or a raw list (line 193) — so it is kept as a `JValue`
(formatted names as `.str`). -/
inductive Node : Type
| container : String → Nat → List Node → Node
| leaf : JValue → Node
deriving Inhabited

/-- Any list has positive `sizeOf`; used for the termination measure of
`buildTree`. -/
theorem sizeOf_list_pos {α : Type} [SizeOf α] (l : List α) : 0 < sizeOf l := by
  cases l <;> simp_arith

mutual

/-- `build_tree(data, factory, level)` (lines 169-193).  On a dict the
source takes `key = list(data.keys())[0]` — which raises `IndexError` when
the dict is empty, modelled as `none` — and `value = data[key]`, i.e. the
first entry's value (dict keys are unique). -/
def buildTree (data : JValue) (level : Nat) : Option Node :=
  match data with
  | .obj [] => none
  | .obj ((key, value) :: _) =>
    match value with
    | .obj items => (buildDictChildren items level).map (Node.container key level)
    | .arr items => (buildListChildren items level).map (Node.container key level)
    | _ => some (Node.container key level [Node.leaf (.str (key ++ ": " ++ pyStr value))])
  | _ => some (Node.leaf data)
termination_by sizeOf data
decreasing_by
all_goals simp_wf
all_goals (try (have hrest : 0 < sizeOf rest := sizeOf_list_pos rest))
all_goals omega

/-- The `for subkey, subvalue in value.items()` loop (lines 177-181):
object/array subvalues are rebuilt as the singleton `{subkey: subvalue}`
at `level + 1`, scalars become a Leaf named `"subkey: subvalue"`. -/
def buildDictChildren (items : List (String × JValue)) (level : Nat) : Option (List Node) :=
  match items with
  | [] => some []
  | (sk, sv) :: rest => do
    let c ← if isObjOrArr sv then buildTree (.obj [(sk, sv)]) (level + 1)
            else some (Node.leaf (.str (sk ++ ": " ++ pyStr sv)))
    let cs ← buildDictChildren rest level
    return c :: cs
termination_by sizeOf items + 2
decreasing_by
all_goals simp_wf
all_goals (try (have hrest : 0 < sizeOf rest := sizeOf_list_pos rest))
all_goals omega

/-- The `for item in value` loop (lines 183-187): object/array items are
rebuilt directly at `level + 1`, scalars become a Leaf named after the
item. -/
def buildListChildren (items : List JValue) (level : Nat) : Option (List Node) :=
  match items with
  | [] => some []
  | item :: rest => do
    let c ← if isObjOrArr item then buildTree item (level + 1)
            else some (Node.leaf item)
    let cs ← buildListChildren rest level
    return c :: cs
termination_by sizeOf items + 2
decreasing_by
all_goals simp_wf
all_goals (try (have hrest : 0 < sizeOf rest := sizeOf_list_pos rest))
all_goals omega

end

/-- The forest-building loop of `display_tree` (lines 198-200): one tree
per top-level key, each built from the singleton `{key: value}`. -/
def buildForest (kvs : List (String × JValue)) : Option (List Node) :=
  kvs.mapM (fun p => buildTree (.obj [p]) 0)

/-- `buildForest` on the empty top-level object: no roots. -/
theorem buildForest_nil : buildForest [] = some [] := by
  simp only [buildForest, List.mapM_nil, Option.pure_def]

/-- `buildForest` unfolded one top-level key at a time. -/
theorem buildForest_cons (p : String × JValue) (rest : List (String × JValue)) :
    buildForest (p :: rest) =
      (buildTree (.obj [p]) 0).bind (fun root =>
        (buildForest rest).bind (fun f => some (root :: f))) := by
  simp only [buildForest, List.mapM_cons]
  rfl

/-- Children of a node as pushed by the iterator: `current.children` for a
Container (line 28), nothing for a Leaf. -/
def iterChildren : Node → List Node
| .container _ _ cs => cs
| .leaf _ => []

/-- `isinstance(node, (TreeContainer, RectangleContainer))` (line 27). -/
def isContainer : Node → Bool
| .container _ _ _ => true
| .leaf _ => false

mutual

/-- Number of nodes in a Component tree. -/
def nodeCount : Node → Nat
| .container _ _ cs => 1 + nodeCountList cs
| .leaf _ => 1

/-- Number of nodes in a list of Component trees. -/
def nodeCountList : List Node → Nat
| [] => 0
| c :: rest => nodeCount c + nodeCountList rest

end

mutual

/-- Number of Leaf nodes in a Component tree. -/
def countLeaves : Node → Nat
| .container _ _ cs => countLeavesList cs
| .leaf _ => 1

/-- Number of Leaf nodes in a list of Component trees. -/
def countLeavesList : List Node → Nat
| [] => 0
| c :: rest => countLeaves c + countLeavesList rest

end

/-- The glyph mapping consumed by the Tree style, i.e. the icon roles that
`TreeContainer.draw` / `TreeLeaf.draw` look up in `self.icons`.  The field
`leaf_prefix_icon` models the dictionary key `leaf_prefix`. -/
structure TreeIcons : Type where
  last_branch_icon : String
  branch_icon : String
  vertical_line : String
  leaf_icon : String
  leaf_prefix_icon : String

/-- The glyph mapping consumed by the Rectangle style (`self.icons` lookups
of `RectangleContainer.draw` / `RectangleLeaf.draw`). -/
structure RectIcons : Type where
  top_left_corner : String
  top_right_corner : String
  bottom_left_corner : String
  bottom_right_corner : String
  horizontal_line : String
  vertical_line : String
  left_branch_icon : String
  branch_icon : String
  leaf_icon : String

mutual

/-- `TreeContainer.draw` / `TreeLeaf.draw` (lines 53-59 and 70-73), as the
list of printed lines.  Container: one line `indent + icon + " " + name`,
then the children at `indent` extended by three spaces (if this node was
the last sibling) or `vertical_line` plus two spaces; a Leaf is one line.
The `is_top`/`is_bottom` parameters of the source are unused defaults in
Tree style and are omitted. -/
def treeDraw (ic : TreeIcons) : Node → String → Bool → List String
| .container name _ cs, indent, is_last =>
  (indent ++ (if is_last then ic.last_branch_icon else ic.branch_icon) ++ " " ++ name)
  :: treeDrawList ic cs (indent ++ (if is_last then "   " else ic.vertical_line ++ "  ")) 0 cs.length
| .leaf name, indent, is_last =>
  [indent ++ (if is_last then ic.leaf_prefix_icon else ic.leaf_icon) ++ " " ++ pyStr name]

/-- The `for i, child in enumerate(self.children)` loop of
`TreeContainer.draw` (lines 57-59): `i` is the running index and `n` the
total child count; `is_last_child` is `i == n - 1`. -/
def treeDrawList (ic : TreeIcons) : List Node → String → Nat → Nat → List String
| [], _, _, _ => []
| c :: rest, indent, i, n =>
  treeDraw ic c indent (i == n - 1) ++ treeDrawList ic rest indent (i + 1) n

end

/-- One printed line of the Rectangle style, one constructor per `print`
statement of `RectangleContainer.draw` / `RectangleLeaf.draw`:
line 101 (`top`), line 103 (`branch`), line 128 (`leaf`), line 113
(`bottom`).  A leaf line carries the raw leaf name value; `renderRLine`
realises the printed string (and fails where the f-string raises). -/
inductive RLine : Type
| top : String → String → RLine
| branch : String → String → RLine
| leaf : String → JValue → RLine
| bottom : String → RLine

/-- Python string repetition `s * n`: a non-positive count yields the
empty string (this is the clamping behaviour of `str.__mul__`). -/
def pyRepeat (s : String) (n : Int) : String :=
  String.join (List.replicate n.toNat s)

/-- The exact text printed for each Rectangle-style line event, following
the f-strings at lines 101, 103, 128 and 113.  Container names are
strings, so the `len(...)` calls on lines 101, 103 and 113 are character
counts; line 128 computes `len(self.name)` on the raw leaf name — the
element count for a list-valued name, and a `TypeError` (here `none`,
nothing printed) for an int/float/bool/None name. -/
def renderRLine (ic : RectIcons) : RLine → Option String
| .top indent name =>
  some (indent ++ ic.top_left_corner ++ name ++
    pyRepeat ic.horizontal_line (33 - (indent.length : Int)) ++ ic.top_right_corner)
| .branch indent name =>
  some (indent ++ ic.branch_icon ++ name ++
    pyRepeat ic.horizontal_line (40 - (indent.length : Int) - (name.length : Int) - 2) ++
    ic.left_branch_icon)
| .leaf indent name =>
  (pyLen name).map (fun l =>
    indent ++ ic.leaf_icon ++ " " ++ pyStr name ++
      pyRepeat ic.horizontal_line (40 - (indent.length : Int) - (l : Int) - 3) ++
      ic.left_branch_icon)
| .bottom indent =>
  some (indent ++ ic.bottom_left_corner ++
    pyRepeat ic.horizontal_line (40 - (indent.length : Int)) ++ ic.bottom_right_corner)

mutual

/-- Whether Box-style drawing of this tree runs to completion: every
Leaf name in it supports Python `len()` (string, list or dict).  A leaf
with an int/float/bool/None name makes `RectangleLeaf.draw` raise
`TypeError` at line 128. -/
def rectOk : Node → Bool
| .container _ _ cs => rectOkList cs
| .leaf name => (pyLen name).isSome

/-- `rectOk` over a child list. -/
def rectOkList : List Node → Bool
| [] => true
| c :: rest => rectOk c && rectOkList rest

end

mutual

/-- `RectangleContainer.draw` / `RectangleLeaf.draw` (lines 89-113 and
124-128): the sequence of emitted line events paired with a completion
flag.  A container first prints a top edge (if `is_top`) or a branch
edge, then its children at `indent + vertical_line + " "`, then — only
if the children completed — a bottom edge if `is_bottom`; the `is_last`
argument is accepted but never used by the source.  A leaf prints its
single line unless `len(self.name)` raises `TypeError` (line 128), in
which case nothing is printed and the draw aborts (`false`), losing all
subsequent output. -/
def rectDraw (ic : RectIcons) : Node → String → Bool → Bool → Bool → List RLine × Bool
| .container name _ cs, indent, _, is_top, is_bottom =>
  let head := if is_top then RLine.top indent name else RLine.branch indent name
  let body := rectDrawList ic cs (indent ++ ic.vertical_line ++ " ") 0 cs.length
  if body.2 then
    (head :: body.1 ++ (if is_bottom then [RLine.bottom indent] else []), true)
  else
    (head :: body.1, false)
| .leaf name, indent, _, _, _ =>
  match pyLen name with
  | some _ => ([RLine.leaf indent name], true)
  | none => ([], false)

/-- The `for i, child in enumerate(self.children)` loop of
`RectangleContainer.draw` (lines 107-109): children are drawn with
`is_last_child = (i == n - 1)`, `is_top=False` and default
`is_bottom=False`; an aborting child stops the loop. -/
def rectDrawList (ic : RectIcons) : List Node → String → Nat → Nat → List RLine × Bool
| [], _, _, _ => ([], true)
| c :: rest, indent, i, n =>
  let r := rectDraw ic c indent (i == n - 1) false false
  if r.2 then
    let rs := rectDrawList ic rest indent (i + 1) n
    (r.1 ++ rs.1, rs.2)
  else
    (r.1, false)

end

/-- The render loop of `display_tree` (lines 201-207) for the Rectangle
style: index `i` over a total of `n` roots; every root is drawn through
the visitor with default arguments (`indent=""`, `is_last=True`,
`is_top=False`, `is_bottom=False`), and the last root — because
`style_factory` is a `RectangleStyleFactory` — is then drawn once more
with `is_bottom=True` (and all other arguments at their defaults).  A
`TypeError` raised inside a draw propagates out of `display_tree`,
losing all subsequent output (`false` flag). -/
def displayRectLoop (ic : RectIcons) : List Node → Nat → Nat → List RLine × Bool
| [], _, _ => ([], true)
| t :: rest, i, n =>
  let r1 := rectDraw ic t "" true false false
  if r1.2 then
    let r2 := if i == n - 1 then rectDraw ic t "" true false true else ([], true)
    if r2.2 then
      let r3 := displayRectLoop ic rest (i + 1) n
      (r1.1 ++ r2.1 ++ r3.1, r3.2)
    else
      (r1.1 ++ r2.1, false)
  else
    (r1.1, false)

/-- `display_tree` (lines 201-207) under the Rectangle style: the emitted
line events and whether the render ran to completion. -/
def displayRectEvents (ic : RectIcons) (forest : List Node) : List RLine × Bool :=
  displayRectLoop ic forest 0 forest.length

/-- The render loop of `display_tree` (lines 201-207) for the Tree style:
each root is drawn once through the visitor with default arguments; the
`is_last_tree` bottom redraw is skipped because the class-name test on
line 206 fails for `TreeStyleFactory`. -/
def displayTreeLoop (ic : TreeIcons) : List Node → List String
| [] => []
| t :: rest => treeDraw ic t "" true ++ displayTreeLoop ic rest

/-- `display_tree` under the Tree style, as the printed lines. -/
def displayTreeLines (ic : TreeIcons) (forest : List Node) : List String :=
  displayTreeLoop ic forest

/-- `nodeCountList` distributes over append. -/
theorem nodeCountList_append (a b : List Node) :
    nodeCountList (a ++ b) = nodeCountList a + nodeCountList b := by
  induction a with
  | nil => simp [nodeCountList]
  | cons c r ih => simp [nodeCountList, ih]; omega

/-- `nodeCountList` is invariant under reversal. -/
theorem nodeCountList_reverse (l : List Node) :
    nodeCountList l.reverse = nodeCountList l := by
  induction l with
  | nil => rfl
  | cons c r ih =>
    simp only [List.reverse_cons, nodeCountList_append, ih]
    simp [nodeCountList]; omega

/-- The children pushed by the iterator carry strictly fewer nodes than
the popped node itself. -/
theorem iterChildren_count_lt (n : Node) :
    nodeCountList (iterChildren n) < nodeCount n := by
  cases n <;> simp [iterChildren, nodeCount, nodeCountList]

/-- `ComponentIterator` (lines 16-29), run to exhaustion: the stack's top
is the END of the list (Python `list.pop`); each step pops the top,
yields it, and — if it is a container — appends its children reversed
(`stack.extend(reversed(current.children))`). -/
def iterRun (stack : List Node) : List Node :=
  match h : stack.getLast? with
  | none => []
  | some cur => cur :: iterRun (stack.dropLast ++ (iterChildren cur).reverse)
termination_by nodeCountList stack
decreasing_by
  simp_wf
  have hne : stack ≠ [] := by
    intro he; rw [he] at h; simp at h
  have hcur : stack.getLast hne = cur := by
    have h2 := List.getLast?_eq_getLast stack hne
    rw [h2] at h
    exact Option.some_inj.mp h
  have hsplit : stack.dropLast ++ [cur] = stack := by
    rw [← hcur]
    exact List.dropLast_append_getLast hne
  calc nodeCountList (stack.dropLast ++ (iterChildren cur).reverse)
      = nodeCountList stack.dropLast + nodeCountList (iterChildren cur) := by
        rw [nodeCountList_append, nodeCountList_reverse]
    _ < nodeCountList stack.dropLast + nodeCount cur := by
        have := iterChildren_count_lt cur; omega
    _ = nodeCountList stack := by
        conv_rhs => rw [← hsplit]
        rw [nodeCountList_append]
        simp [nodeCountList]

mutual

/-- Left-to-right pre-order depth-first traversal of a Component tree,
children in stored order: the yield order claimed for the iterator. -/
def preorder : Node → List Node
| .container name lvl cs => .container name lvl cs :: preorderList cs
| .leaf name => [.leaf name]

/-- Pre-order traversal of a list of trees, left to right. -/
def preorderList : List Node → List Node
| [] => []
| c :: rest => preorder c ++ preorderList rest

end

mutual

/-- Number of terminal (non-object, non-array) scalar values reachable
from a JSON value, nested arbitrarily deep — the spec's count for the
round-trip structural property. -/
def scalarCount : JValue → Nat
| .obj kvs => scalarCountDict kvs
| .arr xs => scalarCountList xs
| _ => 1

/-- Total scalar count of a list of JSON values. -/
def scalarCountList : List JValue → Nat
| [] => 0
| x :: rest => scalarCount x + scalarCountList rest

/-- Total scalar count of the values of an object's members. -/
def scalarCountDict : List (String × JValue) → Nat
| [] => 0
| (_, v) :: rest => scalarCount v + scalarCountDict rest

end

mutual

/-- Tameness of a JSON value for the leaf-count property: every array
element reachable from the value is a scalar or a single-key object
(no array directly inside an array, no zero- or multi-key object as an
array element).  These are exactly the shapes on which `build_tree`
either fails or silently drops or flattens scalars. -/
def tame : JValue → Bool
| .obj kvs => tameDict kvs
| .arr xs => tameItems xs
| _ => true

/-- Tameness of every member value of an object. -/
def tameDict : List (String × JValue) → Bool
| [] => true
| (_, v) :: rest => tame v && tameDict rest

/-- Tameness of the elements of an array. -/
def tameItems : List JValue → Bool
| [] => true
| x :: rest => tameArrItem x && tameItems rest

/-- A tame array element: a scalar, or an object with exactly one key
whose value is tame; a nested array, or an object with zero or several
keys, is not tame. -/
def tameArrItem : JValue → Bool
| .obj [(_, v)] => tame v
| .obj _ => false
| .arr _ => false
| _ => true

end

/-- Children of the single-key object `{k: v}` as the spec words them
(claim C1): if `v` is an object, one child per member in insertion order
— a recursive build of the singleton `{subkey: subvalue}` at `level+1`
for object/array subvalues, otherwise a Leaf named `"subkey: subvalue"`;
if `v` is an array, one child per item in order — a recursive build at
`level+1` for object/array items, otherwise a Leaf named after the item;
if `v` is a scalar, the single Leaf `"k: v"`. -/
def specChildren1 (k : String) (v : JValue) (level : Nat) : Option (List Node) :=
  match v with
  | .obj kvs => kvs.mapM (fun p =>
      if isObjOrArr p.2 then buildTree (.obj [p]) (level + 1)
      else some (Node.leaf (.str (p.1 ++ ": " ++ pyStr p.2))))
  | .arr items => items.mapM (fun it =>
      if isObjOrArr it then buildTree it (level + 1)
      else some (Node.leaf it))
  | _ => some [Node.leaf (.str (k ++ ": " ++ pyStr v))]

/-- A sample Tree-style glyph family (the classic branch glyphs),
used to instantiate witnesses. -/
def sampleTreeIcons : TreeIcons where
  last_branch_icon := "└─"
  branch_icon := "├─"
  vertical_line := "│"
  leaf_icon := "├─"
  leaf_prefix_icon := "└─"

/-- A sample Rectangle-style glyph family, used to instantiate
witnesses. -/
def sampleRectIcons : RectIcons where
  top_left_corner := "┌"
  top_right_corner := "┐"
  bottom_left_corner := "└"
  bottom_right_corner := "┘"
  horizontal_line := "─"
  vertical_line := "│"
  left_branch_icon := "┤"
  branch_icon := "├"
  leaf_icon := "├"

/-- The member loop of `build_tree` equals its `mapM` form (used to relate
the source loop to the spec's per-pair description). -/
theorem buildDictChildren_eq_mapM (items : List (String × JValue)) (level : Nat) :
    buildDictChildren items level = items.mapM (fun p =>
      if isObjOrArr p.2 then buildTree (.obj [p]) (level + 1)
      else some (Node.leaf (.str (p.1 ++ ": " ++ pyStr p.2)))) := by
  induction items with
  | nil => simp only [buildDictChildren, List.mapM_nil, Option.pure_def]
  | cons p rest ih =>
    cases p with
    | mk sk sv =>
      simp only [buildDictChildren, List.mapM_cons, ih]
      cases hsv : isObjOrArr sv <;> simp [hsv]

/-- The item loop of `build_tree` equals its `mapM` form. -/
theorem buildListChildren_eq_mapM (items : List JValue) (level : Nat) :
    buildListChildren items level = items.mapM (fun it =>
      if isObjOrArr it then buildTree it (level + 1)
      else some (Node.leaf it)) := by
  induction items with
  | nil => simp only [buildListChildren, List.mapM_nil, Option.pure_def]
  | cons item rest ih =>
    simp only [buildListChildren, List.mapM_cons, ih]
    cases hit : isObjOrArr item <;> simp [hit]

/-- C1 (amended): for a single-key object `{k: v}`, `build_tree` returns
the Container named `k` at the given level whose children follow the
spec's per-member / per-item rule (`specChildren1`); the build fails
(and only fails) when a recursively built array item fails — e.g. an
empty object appearing as an array item. -/
theorem C1_single_key_children_rule (k : String) (v : JValue) (level : Nat) :
    buildTree (.obj [(k, v)]) level =
      (specChildren1 k v level).map (Node.container k level) := by
  cases v <;> simp [buildTree, specChildren1,
    buildDictChildren_eq_mapM, buildListChildren_eq_mapM]

/-- C1 (counterexample to the claim as stated): for `{"k": [{}]}` the
build does not return a Container at all — the recursive
`build_tree({})` on the empty-object array item fails (Python raises
`IndexError` at `list(data.keys())[0]`), modelled as `none`. -/
theorem C1_counterexample_empty_object_item :
    buildTree (.obj [("k", .arr [.obj []])]) 0 = none := by
  simp [buildTree, buildListChildren, isObjOrArr]

/-- C4 (amended): an object with zero keys passed directly to
`build_tree` makes the build fail (the source raises `IndexError` when
selecting the first key), while an object whose single key maps to a
zero-key object yields a Container with no children. -/
theorem C4_empty_object (k : String) (level : Nat) :
    buildTree (.obj []) level = none ∧
    buildTree (.obj [(k, .obj [])]) level = some (.container k level []) := by
  constructor <;> simp [buildTree, buildDictChildren]

/-- C4 (counterexample to the claim as stated): the zero-key object
`{}` does not build successfully — `build_tree({})` fails (the model of
the `IndexError`) instead of yielding a childless Container. -/
theorem C4_counterexample_zero_keys : buildTree (.obj []) 0 = none := by
  simp [buildTree]

/-- C9: when a multi-key object is passed directly to `build_tree`
(e.g. as an array item), only the first key is used: the result is
identical to building the singleton of the first entry, so all later
keys and their values contribute nothing. -/
theorem C9_multi_key_uses_first_key_only (k : String) (v : JValue)
    (rest : List (String × JValue)) (level : Nat) :
    buildTree (.obj ((k, v) :: rest)) level = buildTree (.obj [(k, v)]) level := by
  cases v <;> simp [buildTree]

/-- `preorderList` distributes over append. -/
theorem preorderList_append (a b : List Node) :
    preorderList (a ++ b) = preorderList a ++ preorderList b := by
  induction a with
  | nil => simp [preorderList]
  | cons c r ih => simp [preorderList, ih]

/-- A node's pre-order sequence is itself followed by the pre-order of
the children the iterator would push for it. -/
theorem preorder_self_children (n : Node) :
    preorder n = n :: preorderList (iterChildren n) := by
  cases n <;> simp [preorder, preorderList, iterChildren]

/-- Generic structural induction over `Node` (strong induction on
`sizeOf`, recursing through the child list). -/
theorem node_ind (P : Node → Prop) (hleaf : ∀ s, P (.leaf s))
    (hcont : ∀ name lvl cs, (∀ c ∈ cs, P c) → P (.container name lvl cs)) :
    ∀ n, P n := by
  have H : ∀ m, ∀ n : Node, sizeOf n ≤ m → P n := by
    intro m
    induction m with
    | zero => intro n h; exfalso; cases n <;> simp at h <;> omega
    | succ m ih =>
      intro n h
      cases n with
      | leaf s => exact hleaf s
      | container name lvl cs =>
        refine hcont name lvl cs ?_
        intro c hc
        refine ih c ?_
        have h1 : sizeOf c < sizeOf cs := List.sizeOf_lt_of_mem hc
        have h2 : sizeOf (Node.container name lvl cs) = 1 + sizeOf name + sizeOf lvl + sizeOf cs := by
          simp
        omega
  exact fun n => H (sizeOf n) n le_rfl

/-- The iterator, run from any stack, yields the pre-order sequences of
the stacked trees from the top of the stack (its end) down. -/
theorem iterRun_eq_preorder (stack : List Node) :
    iterRun stack = preorderList stack.reverse := by
  have H : ∀ m (stack : List Node), nodeCountList stack ≤ m →
      iterRun stack = preorderList stack.reverse := by
    intro m
    induction m with
    | zero =>
      intro stack h
      cases stack with
      | nil => simp [iterRun, preorderList]
      | cons c rest =>
        exfalso
        have : 0 < nodeCount c := by cases c <;> simp [nodeCount] <;> omega
        simp [nodeCountList] at h
        omega
    | succ m ih =>
      intro stack h
      cases hl : stack.getLast? with
      | none =>
        have : stack = [] := by
          cases stack with
          | nil => rfl
          | cons c rest => simp at hl
        subst this
        simp [iterRun, preorderList]
      | some cur =>
        have hne : stack ≠ [] := by
          intro he; rw [he] at hl; simp at hl
        have hcur : stack.getLast hne = cur := by
          have h2 := List.getLast?_eq_getLast stack hne
          rw [h2] at hl
          exact Option.some_inj.mp hl
        have hsplit : stack.dropLast ++ [cur] = stack := by
          rw [← hcur]
          exact List.dropLast_append_getLast hne
        have hstep : iterRun stack =
            cur :: iterRun (stack.dropLast ++ (iterChildren cur).reverse) := by
          rw [iterRun]
          rw [hl]
        have hcount : nodeCountList (stack.dropLast ++ (iterChildren cur).reverse) ≤ m := by
          have e1 : nodeCountList stack =
              nodeCountList stack.dropLast + nodeCount cur := by
            conv_lhs => rw [← hsplit]
            rw [nodeCountList_append]
            simp [nodeCountList]
          have e2 := nodeCountList_append stack.dropLast (iterChildren cur).reverse
          have e3 := nodeCountList_reverse (iterChildren cur)
          have e4 := iterChildren_count_lt cur
          omega
        rw [hstep, ih _ hcount]
        have lhs_eq : (stack.dropLast ++ (iterChildren cur).reverse).reverse =
            iterChildren cur ++ stack.dropLast.reverse := by
          rw [List.reverse_append, List.reverse_reverse]
        have rhs_eq : stack.reverse = cur :: stack.dropLast.reverse := by
          conv_lhs => rw [← hsplit]
          rw [List.reverse_append]
          simp
        rw [lhs_eq, rhs_eq, preorderList_append]
        have rhs2 : preorderList (cur :: stack.dropLast.reverse) =
            preorder cur ++ preorderList stack.dropLast.reverse := by
          simp [preorderList]
        rw [rhs2, preorder_self_children cur]
        simp
  exact H (nodeCountList stack) stack le_rfl

/-- The pre-order sequence of a list of trees lists exactly their nodes:
its length is the total node count (given the same fact for every tree
in the list). -/
theorem preorderList_length_of (cs : List Node)
    (h : ∀ c ∈ cs, (preorder c).length = nodeCount c) :
    (preorderList cs).length = nodeCountList cs := by
  induction cs with
  | nil => simp [preorderList, nodeCountList]
  | cons c rest ih =>
    simp only [preorderList, nodeCountList, List.length_append]
    rw [h c (by simp), ih (fun c hc => h c (by simp [hc]))]

/-- The pre-order sequence of a tree has exactly one entry per node. -/
theorem preorder_length (n : Node) : (preorder n).length = nodeCount n := by
  induction n using node_ind with
  | hleaf s => simp [preorder, nodeCount]
  | hcont name lvl cs ihc =>
    simp only [preorder, nodeCount, List.length_cons]
    rw [preorderList_length_of cs ihc]
    omega

/-- C8: started from a single root, the stack-based `ComponentIterator`
terminates (it is a total function here), yields exactly the
left-to-right pre-order depth-first sequence of the tree (children in
stored order), and yields every node exactly once (one yield per node
of the tree). -/
theorem C8_iterator_is_preorder (root : Node) :
    iterRun [root] = preorder root ∧
    (iterRun [root]).length = nodeCount root := by
  have h := iterRun_eq_preorder [root]
  have h2 : preorderList [root] = preorder root := by simp [preorderList]
  constructor
  · rw [h]; simpa using h2
  · rw [h]
    have : ([root] : List Node).reverse = [root] := by simp
    rw [this, h2]
    exact preorder_length root

/-- The enumerated child loop of `TreeContainer.draw`, re-expressed
positionally: child `j` of the list is drawn with last-sibling flag
`i0 + j == n - 1`, where `i0` is the loop's starting index. -/
theorem treeDrawList_eq_range (ic : TreeIcons) (cs : List Node) (indent : String) :
    ∀ (i0 n : Nat), treeDrawList ic cs indent i0 n =
      (List.range cs.length).flatMap (fun j =>
        treeDraw ic (cs.getD j (.leaf (.str ""))) indent (i0 + j == n - 1)) := by
  induction cs with
  | nil => intro i0 n; simp [treeDrawList]
  | cons c rest ih =>
    intro i0 n
    simp only [treeDrawList, List.length_cons, List.range_succ_eq_map,
      List.flatMap_cons, List.flatMap_map]
    congr 1
    rw [ih (i0 + 1) n]
    congr 1
    funext j
    have harith : i0 + (j + 1) = (i0 + 1) + j := by omega
    simp [List.getD, Function.comp, harith]

/-- C6: under Tree style, a Container's emitted line is
`indent + (last_branch_icon / branch_icon) + " " + name` according to
its own last-sibling flag; each child `j` is drawn at the parent indent
extended by three spaces (parent last) or `vertical_line` plus two
spaces (otherwise), with last-sibling status determined purely by the
position `j == len - 1` in the child list; and a Leaf's emitted line is
`indent + (leaf_prefix / leaf_icon) + " " + name` (the f-string
stringifies the raw leaf name). -/
theorem C6_tree_style_geometry (ic : TreeIcons) (name : String) (lvl : Nat)
    (cs : List Node) (indent : String) (is_last : Bool) :
    treeDraw ic (.container name lvl cs) indent is_last =
      (indent ++ (if is_last then ic.last_branch_icon else ic.branch_icon) ++ " " ++ name)
      :: (List.range cs.length).flatMap (fun j =>
          treeDraw ic (cs.getD j (.leaf (.str "")))
            (indent ++ (if is_last then "   " else ic.vertical_line ++ "  "))
            (j == cs.length - 1))
    ∧ ∀ nv : JValue, treeDraw ic (.leaf nv) indent is_last =
      [indent ++ (if is_last then ic.leaf_prefix_icon else ic.leaf_icon) ++ " " ++ pyStr nv] := by
  constructor
  · rw [treeDraw]
    rw [treeDrawList_eq_range]
    simp
  · intro nv
    rw [treeDraw]

/-- Recogniser for bottom-edge line events (the `print` on line 113). -/
def isBottomLine : RLine → Bool
| .bottom _ => true
| _ => false

/-- The completion flag of a draw depends only on the tree (whether all
its Leaf names support `len()`), not on indent or any of the flags. -/
theorem rectDraw_snd (ic : RectIcons) (t : Node) :
    ∀ (indent : String) (is_last is_top is_bottom : Bool),
      (rectDraw ic t indent is_last is_top is_bottom).2 = rectOk t := by
  induction t using node_ind with
  | hleaf nv =>
    intro indent is_last is_top is_bottom
    cases hl : pyLen nv <;> simp [rectDraw, rectOk, hl]
  | hcont name lvl cs ihc =>
    intro indent is_last is_top is_bottom
    have haux : ∀ (ds : List Node), (∀ c ∈ ds, ∀ (a : String) (b c2 d : Bool),
        (rectDraw ic c a b c2 d).2 = rectOk c) →
        ∀ (ind : String) (i n : Nat), (rectDrawList ic ds ind i n).2 = rectOkList ds := by
      intro ds
      induction ds with
      | nil => intro hmem ind i n; simp [rectDrawList, rectOkList]
      | cons c rest ihl =>
        intro hmem ind i n
        simp only [rectDrawList, rectOkList]
        rw [hmem c (by simp)]
        cases hc : rectOk c <;>
          simp [hc, ihl (fun c hc2 => hmem c (by simp [hc2]))]
    have hlist := haux cs ihc (indent ++ ic.vertical_line ++ " ") 0 cs.length
    simp only [rectDraw, rectOk]
    rw [hlist]
    cases hcs : rectOkList cs <;> simp [hcs]

/-- The child loop flag equals the combined tameness of the children. -/
theorem rectDrawList_snd (ic : RectIcons) (ds : List Node) :
    ∀ (ind : String) (i n : Nat), (rectDrawList ic ds ind i n).2 = rectOkList ds := by
  induction ds with
  | nil => intro ind i n; simp [rectDrawList, rectOkList]
  | cons c rest ihl =>
    intro ind i n
    simp only [rectDrawList, rectOkList]
    rw [rectDraw_snd]
    cases hc : rectOk c <;> simp [hc, ihl]

/-- On a tree whose rendering completes, drawing with `is_bottom=True`
is drawing with `is_bottom=False` followed by the single bottom edge
(for containers; leaves ignore the flag). -/
theorem rectDraw_bottom_split (ic : RectIcons) (t : Node) (indent : String)
    (is_last is_top : Bool) (hok : rectOk t = true) :
    rectDraw ic t indent is_last is_top true =
      ((rectDraw ic t indent is_last is_top false).1
       ++ (if isContainer t then [RLine.bottom indent] else []), true) := by
  cases t with
  | leaf nv =>
    cases hl : pyLen nv with
    | none => rw [rectOk] at hok; rw [hl] at hok; simp at hok
    | some l => simp [rectDraw, hl, isContainer]
  | container name lvl cs =>
    have hb : (rectDrawList ic cs (indent ++ ic.vertical_line ++ " ") 0 cs.length).2 =
        true := by
      rw [rectDrawList_snd]
      simpa [rectOk] using hok
    simp [rectDraw, hb, isContainer]

/-- Drawing any node with `is_bottom=False` emits no bottom-edge line,
whether or not the draw completes: children are always drawn with the
default `is_bottom=False`, and the closing edge is only printed under
the flag. -/
theorem rectDraw_no_bottom (ic : RectIcons) (t : Node) :
    ∀ (indent : String) (is_last is_top : Bool),
      (rectDraw ic t indent is_last is_top false).1.countP (fun l => isBottomLine l) = 0 := by
  induction t using node_ind with
  | hleaf nv =>
    intro indent is_last is_top
    cases hl : pyLen nv <;> simp [rectDraw, hl, isBottomLine]
  | hcont name lvl cs ihc =>
    intro indent is_last is_top
    have haux : ∀ (ds : List Node), (∀ c ∈ ds, ∀ (ind : String) (b c2 : Bool),
        (rectDraw ic c ind b c2 false).1.countP (fun l => isBottomLine l) = 0) →
        ∀ (ind : String) (i n : Nat),
        (rectDrawList ic ds ind i n).1.countP (fun l => isBottomLine l) = 0 := by
      intro ds
      induction ds with
      | nil => intro hmem ind i n; simp [rectDrawList]
      | cons c rest ihl =>
        intro hmem ind i n
        simp only [rectDrawList]
        cases hc : (rectDraw ic c ind (i == n - 1) false false).2 <;>
          simp [hc, List.countP_append, hmem c (by simp),
            ihl (fun c hc2 => hmem c (by simp [hc2]))]
    have hlist := haux cs ihc (indent ++ ic.vertical_line ++ " ") 0 cs.length
    have hfst : (rectDraw ic (Node.container name lvl cs) indent is_last is_top false).1 =
        (if is_top then RLine.top indent name else RLine.branch indent name)
          :: (rectDrawList ic cs (indent ++ ic.vertical_line ++ " ") 0 cs.length).1 := by
      simp only [rectDraw]
      cases hb : (rectDrawList ic cs (indent ++ ic.vertical_line ++ " ") 0 cs.length).2 <;>
        simp [hb]
    rw [hfst, List.countP_cons_of_neg]
    · exact hlist
    · cases is_top <;> simp [isBottomLine]

/-- A flat-mapped line list has no bottom edges when no piece has one. -/
theorem countP_flatMap_zero (fs : List Node) (f : Node → List RLine)
    (h : ∀ t ∈ fs, (f t).countP (fun l => isBottomLine l) = 0) :
    (fs.flatMap f).countP (fun l => isBottomLine l) = 0 := by
  induction fs with
  | nil => simp
  | cons t rest ih =>
    simp only [List.flatMap_cons, List.countP_append]
    rw [h t (by simp), ih (fun t ht => h t (by simp [ht]))]

/-- Closed form of the Rectangle-style render loop of `display_tree`
when the forest splits as `fs ++ [last]` and every root renders without
a `TypeError`: every root is drawn once with default arguments, and the
last root is then drawn a second time with `is_bottom=True`. -/
theorem displayRectLoop_closed (ic : RectIcons) :
    ∀ (fs : List Node) (last : Node) (i0 n : Nat), n = i0 + fs.length + 1 →
      (∀ r ∈ fs, rectOk r = true) → rectOk last = true →
      displayRectLoop ic (fs ++ [last]) i0 n =
        (fs.flatMap (fun t => (rectDraw ic t "" true false false).1)
         ++ (rectDraw ic last "" true false false).1
         ++ (rectDraw ic last "" true false true).1, true) := by
  intro fs
  induction fs with
  | nil =>
    intro last i0 n hn hfs hlast
    subst hn
    simp [displayRectLoop, rectDraw_snd, hlast]
  | cons t rest ih =>
    intro last i0 n hn hfs hlast
    have hcond : (i0 == n - 1) = false := by
      have hne : i0 ≠ n - 1 := by
        subst hn
        simp only [List.length_cons]
        omega
      simpa using hne
    have ht : rectOk t = true := hfs t (by simp)
    rw [List.cons_append]
    simp only [displayRectLoop, rectDraw_snd, ht, hcond, Bool.false_eq_true, if_false,
      if_true, List.flatMap_cons, List.append_eq]
    rw [ih last (i0 + 1) n (by subst hn; simp; omega)
        (fun r hr => hfs r (by simp [hr])) hlast]
    simp [List.append_assoc]

/-- `display_tree` under the Rectangle style, in closed form, when all
roots render without a `TypeError`. -/
theorem displayRectEvents_closed (ic : RectIcons) (fs : List Node) (last : Node)
    (hfs : ∀ r ∈ fs, rectOk r = true) (hlast : rectOk last = true) :
    displayRectEvents ic (fs ++ [last]) =
      (fs.flatMap (fun t => (rectDraw ic t "" true false false).1)
       ++ (rectDraw ic last "" true false false).1
       ++ (rectDraw ic last "" true false true).1, true) := by
  unfold displayRectEvents
  apply displayRectLoop_closed ic fs last 0 (fs ++ [last]).length ?_ hfs hlast
  simp

/-- C10 (amended): under the Rectangle style, provided every root
renders without the `TypeError` that `len(self.name)` raises for leaves
with raw non-string names, `display_tree` draws the last forest root
twice — once through the visitor without a bottom edge and then a
second complete time with `is_bottom=True`, whose output is the same
line sequence again followed by the single bottom edge; when a root
aborts, drawing stops at the failing leaf instead (see the
counterexample).  Under the Tree style every root is drawn exactly
once, unconditionally. -/
theorem C10_last_root_drawn_twice (ic : RectIcons) (tic : TreeIcons)
    (fs forest2 : List Node) (last : Node) :
    ((∀ r ∈ fs ++ [last], rectOk r = true) →
      displayRectEvents ic (fs ++ [last]) =
        (fs.flatMap (fun t => (rectDraw ic t "" true false false).1)
         ++ (rectDraw ic last "" true false false).1
         ++ ((rectDraw ic last "" true false false).1
             ++ (if isContainer last then [RLine.bottom ""] else [])), true))
    ∧ displayTreeLines tic forest2 =
        forest2.flatMap (fun t => treeDraw tic t "" true) := by
  constructor
  · intro hok
    have hlast : rectOk last = true := hok last (by simp)
    rw [displayRectEvents_closed ic fs last (fun r hr => hok r (by simp [hr])) hlast]
    rw [rectDraw_bottom_split ic last "" true false hlast]
  · unfold displayTreeLines
    induction forest2 with
    | nil => simp [displayTreeLoop]
    | cons t rest ih => simp [displayTreeLoop, ih]

/-- C10 (counterexample to the claim as stated): for the Box-style
forest of `{"b": [true]}` the last (only) root is NOT drawn twice — the
first visitor pass prints the branch edge and then aborts with
`TypeError` at `len(True)` in `RectangleLeaf.draw`, so the output is a
single line, no second copy and no bottom edge. -/
theorem C10_counterexample :
    buildForest [("b", JValue.arr [JValue.bool true])] =
      some [Node.container "b" 0 [Node.leaf (JValue.bool true)]]
    ∧ displayRectEvents sampleRectIcons
        [Node.container "b" 0 [Node.leaf (JValue.bool true)]] =
      ([RLine.branch "" "b"], false) := by
  constructor
  · rw [buildForest_cons, buildForest_nil]
    simp [buildTree, buildListChildren, isObjOrArr]
  · simp [displayRectEvents, displayRectLoop, rectDraw, rectDrawList, pyLen]

/-- Witness for C10 on the single-root forest of `{"a": "v"}`, whose
leaf name is a string, so rendering completes. -/
theorem C10_witness :
    (∀ r ∈ ([] ++ [Node.container "a" 0 [Node.leaf (JValue.str "a: v")]] : List Node),
      rectOk r = true)
    ∧ displayRectEvents sampleRectIcons
        ([] ++ [Node.container "a" 0 [Node.leaf (JValue.str "a: v")]]) =
        (([] : List Node).flatMap
            (fun t => (rectDraw sampleRectIcons t "" true false false).1)
         ++ (rectDraw sampleRectIcons
              (Node.container "a" 0 [Node.leaf (JValue.str "a: v")]) "" true false false).1
         ++ ((rectDraw sampleRectIcons
              (Node.container "a" 0 [Node.leaf (JValue.str "a: v")]) "" true false false).1
             ++ (if isContainer (Node.container "a" 0 [Node.leaf (JValue.str "a: v")])
                 then [RLine.bottom ""] else [])), true)
    ∧ displayTreeLines sampleTreeIcons
        [Node.container "a" 0 [Node.leaf (JValue.str "a: v")]] =
        [Node.container "a" 0 [Node.leaf (JValue.str "a: v")]].flatMap
          (fun t => treeDraw sampleTreeIcons t "" true) := by
  have hok : ∀ r ∈ ([] ++ [Node.container "a" 0 [Node.leaf (JValue.str "a: v")]] : List Node),
      rectOk r = true := by
    intro r hr
    simp only [List.nil_append, List.mem_singleton] at hr
    subst hr
    simp [rectOk, rectOkList, pyLen]
  exact ⟨hok,
    (C10_last_root_drawn_twice sampleRectIcons sampleTreeIcons []
      [Node.container "a" 0 [Node.leaf (JValue.str "a: v")]]
      (Node.container "a" 0 [Node.leaf (JValue.str "a: v")])).1 hok,
    (C10_last_root_drawn_twice sampleRectIcons sampleTreeIcons []
      [Node.container "a" 0 [Node.leaf (JValue.str "a: v")]]
      (Node.container "a" 0 [Node.leaf (JValue.str "a: v")])).2⟩

/-- A successful `build_tree` on an object always returns a Container
(every branch of the dict case wraps its children in one). -/
theorem buildTree_obj_isContainer (kvs : List (String × JValue)) (level : Nat)
    (n : Node) (h : buildTree (.obj kvs) level = some n) : isContainer n = true := by
  cases kvs with
  | nil => simp [buildTree] at h
  | cons p rest =>
    cases p with
    | mk k v =>
      cases v <;> simp [buildTree] at h
      case obj items =>
        obtain ⟨cs, hcs, rfl⟩ := h
        rfl
      case arr items =>
        obtain ⟨cs, hcs, rfl⟩ := h
        rfl
      all_goals (rw [← h]; rfl)

/-- Every root of a successfully built forest is a Container. -/
theorem buildForest_roots_containers (kvs : List (String × JValue))
    (forest : List Node) (h : buildForest kvs = some forest) :
    ∀ r ∈ forest, isContainer r = true := by
  induction kvs generalizing forest with
  | nil =>
    simp only [buildForest, List.mapM_nil, Option.pure_def, Option.some_inj] at h
    subst h
    intro r hr
    simp at hr
  | cons p rest ih =>
    simp only [buildForest, List.mapM_cons] at h
    have hx : ∃ root, buildTree (.obj [p]) 0 = some root ∧
        ∃ forest2, rest.mapM (fun q => buildTree (.obj [q]) 0) = some forest2 ∧
          forest = root :: forest2 := by
      cases hb : buildTree (.obj [p]) 0 with
      | none => rw [hb] at h; simp at h
      | some root =>
        rw [hb] at h
        cases hm : rest.mapM (fun q => buildTree (.obj [q]) 0) with
        | none => rw [hm] at h; simp at h
        | some forest2 =>
          rw [hm] at h
          simp at h
          exact ⟨root, rfl, forest2, rfl, h.symm⟩
    obtain ⟨root, hroot, forest2, hforest2, rfl⟩ := hx
    intro r hr
    rcases List.mem_cons.mp hr with hhead | htail
    · subst hhead
      exact buildTree_obj_isContainer [p] 0 r hroot
    · exact ih forest2 hforest2 r htail

/-- C5 (amended): under the Rectangle style, for a successfully built
non-empty forest all of whose roots render without the `TypeError`
raised by `len(self.name)` on raw non-string leaf names, the render
completes and its output contains exactly one bottom-edge line, that
line is the final line of the whole output (drawn with empty indent
after the last root), and no per-root visitor pass (default arguments,
`is_bottom=False`) emits any bottom edge.  When a leaf with such a name
is reached, rendering aborts and no bottom edge is emitted at all (see
the counterexample). -/
theorem C5_single_bottom_edge (ic : RectIcons) (kvs : List (String × JValue))
    (forest : List Node) (h1 : buildForest kvs = some forest) (h2 : forest ≠ [])
    (h3 : ∀ r ∈ forest, rectOk r = true) :
    (displayRectEvents ic forest).2 = true ∧
    (displayRectEvents ic forest).1.countP (fun l => isBottomLine l) = 1 ∧
    (displayRectEvents ic forest).1.getLast? = some (RLine.bottom "") ∧
    ∀ r ∈ forest, (rectDraw ic r "" true false false).1.countP (fun l => isBottomLine l) = 0 := by
  have hsplit : forest.dropLast ++ [forest.getLast h2] = forest :=
    List.dropLast_append_getLast h2
  have hlastmem : forest.getLast h2 ∈ forest := List.getLast_mem h2
  have hlastcont : isContainer (forest.getLast h2) = true :=
    buildForest_roots_containers kvs forest h1 _ hlastmem
  have hlastok : rectOk (forest.getLast h2) = true := h3 _ hlastmem
  have hdropok : ∀ r ∈ forest.dropLast, rectOk r = true := by
    intro r hr
    refine h3 r ?_
    rw [← hsplit]
    exact List.mem_append_left _ hr
  have hev : displayRectEvents ic forest =
      (forest.dropLast.flatMap (fun t => (rectDraw ic t "" true false false).1)
       ++ (rectDraw ic (forest.getLast h2) "" true false false).1
       ++ (rectDraw ic (forest.getLast h2) "" true false true).1, true) := by
    conv_lhs => rw [← hsplit]
    exact displayRectEvents_closed ic forest.dropLast (forest.getLast h2) hdropok hlastok
  have hev1 : (displayRectEvents ic forest).1 =
      forest.dropLast.flatMap (fun t => (rectDraw ic t "" true false false).1)
      ++ (rectDraw ic (forest.getLast h2) "" true false false).1
      ++ (rectDraw ic (forest.getLast h2) "" true false true).1 := by
    rw [hev]
  have h4 : (rectDraw ic (forest.getLast h2) "" true false true).1 =
      (rectDraw ic (forest.getLast h2) "" true false false).1 ++ [RLine.bottom ""] := by
    rw [rectDraw_bottom_split ic _ "" true false hlastok, hlastcont]
    simp
  refine ⟨?_, ?_, ?_, ?_⟩
  · rw [hev]
  · rw [hev1]
    simp only [h4, List.countP_append]
    rw [countP_flatMap_zero _ _ (fun t _ => rectDraw_no_bottom ic t "" true false)]
    simp only [rectDraw_no_bottom]
    simp [isBottomLine]
  · rw [hev1, h4]
    simp only [← List.append_assoc]
    exact List.getLast?_concat _
  · intro r _
    exact rectDraw_no_bottom ic r "" true false

/-- C5 (counterexample to the claim as stated): for the Box-style
forest of `{"a": [1]}` — which builds successfully — the program prints
the branch edge of the root and then aborts with `TypeError` at
`len(1)` in `RectangleLeaf.draw`, so NO bottom-edge line is ever
appended after the last root. -/
theorem C5_counterexample :
    buildForest [("a", JValue.arr [JValue.num 1])] =
      some [Node.container "a" 0 [Node.leaf (JValue.num 1)]]
    ∧ displayRectEvents sampleRectIcons
        [Node.container "a" 0 [Node.leaf (JValue.num 1)]] =
      ([RLine.branch "" "a"], false)
    ∧ (displayRectEvents sampleRectIcons
        [Node.container "a" 0 [Node.leaf (JValue.num 1)]]).1.countP
          (fun l => isBottomLine l) = 0 := by
  refine ⟨?_, ?_, ?_⟩
  · rw [buildForest_cons, buildForest_nil]
    simp [buildTree, buildListChildren, isObjOrArr]
  · simp [displayRectEvents, displayRectLoop, rectDraw, rectDrawList, pyLen]
  · simp [displayRectEvents, displayRectLoop, rectDraw, rectDrawList, pyLen, isBottomLine]

/-- C2 (code bug): under the Rectangle style, the first line emitted for
a top-level forest root is the BRANCH edge, not the top edge: the
visitor invokes `draw()` with its defaults, and
`RectangleContainer.draw` defaults `is_top=False`; no call site in the
program ever passes `is_top=True`, so the top-edge branch (line 101) is
dead code.  Shown on the forest built from `{"a": "v"}`: the full event
sequence contains branch edges and the bottom edge only. -/
theorem C2_top_edge_never_drawn (ic : RectIcons) :
    buildForest [("a", .str "v")] = some [.container "a" 0 [.leaf (.str "a: v")]]
    ∧ displayRectEvents ic [.container "a" 0 [.leaf (.str "a: v")]] =
        ([RLine.branch "" "a", RLine.leaf ("" ++ ic.vertical_line ++ " ") (.str "a: v"),
          RLine.branch "" "a", RLine.leaf ("" ++ ic.vertical_line ++ " ") (.str "a: v"),
          RLine.bottom ""], true)
    ∧ ∀ ind nm, RLine.top ind nm ∉
        (displayRectEvents ic [.container "a" 0 [.leaf (.str "a: v")]]).1 := by
  refine ⟨?_, ?_, ?_⟩
  · rw [buildForest_cons, buildForest_nil]
    simp [buildTree, pyStr]
  · simp [displayRectEvents, displayRectLoop, rectDraw, rectDrawList, pyLen]
  · intro ind nm
    simp [displayRectEvents, displayRectLoop, rectDraw, rectDrawList, pyLen]

/-- Python repetition with a non-positive count yields the empty string. -/
theorem pyRepeat_nonpos (s : String) (n : Int) (h : n ≤ 0) : pyRepeat s n = "" := by
  unfold pyRepeat
  rw [Int.toNat_of_nonpos h]
  rfl

/-- C7: under the Box style, whenever the computed horizontal repeat
count is negative (top edge: `33 − len(indent)`; branch edge:
`40 − len(indent) − len(name) − 2`; leaf: `40 − len(indent) −
len(self.name) − 3`, where `len(self.name)` is Python `len` of the raw
leaf name; bottom edge: `40 − len(indent)`), the repetition clamps to
zero and the line is still emitted — the rendered text is simply the
glyphs and name with no horizontal fill, so drawing never fails for
long names or deep indents (its only failure is the type error of a
`len()`-less leaf name, independent of any length). -/
theorem C7_negative_repeat_clamps (ic : RectIcons) (indent name : String)
    (nv : JValue) (l : Nat) :
    ((33 : Int) - indent.length < 0 →
      renderRLine ic (.top indent name) =
        some (indent ++ ic.top_left_corner ++ name ++ ic.top_right_corner))
    ∧ ((40 : Int) - indent.length - name.length - 2 < 0 →
      renderRLine ic (.branch indent name) =
        some (indent ++ ic.branch_icon ++ name ++ ic.left_branch_icon))
    ∧ (pyLen nv = some l → (40 : Int) - indent.length - l - 3 < 0 →
      renderRLine ic (.leaf indent nv) =
        some (indent ++ ic.leaf_icon ++ " " ++ pyStr nv ++ ic.left_branch_icon))
    ∧ ((40 : Int) - indent.length < 0 →
      renderRLine ic (.bottom indent) =
        some (indent ++ ic.bottom_left_corner ++ ic.bottom_right_corner)) := by
  refine ⟨?_, ?_, ?_, ?_⟩
  · intro h
    simp only [renderRLine]
    rw [pyRepeat_nonpos _ _ (le_of_lt h)]
    simp
  · intro h
    simp only [renderRLine]
    rw [pyRepeat_nonpos _ _ (le_of_lt h)]
    simp
  · intro hl h
    rw [renderRLine, hl]
    simp [pyRepeat_nonpos _ _ (le_of_lt h)]
  · intro h
    simp only [renderRLine]
    rw [pyRepeat_nonpos _ _ (le_of_lt h)]
    simp

/-- Witness for C7 at a concrete over-long indent (41 characters) and the
sample glyph family: all four repeat counts are negative and each line
is still emitted, with zero horizontal fill. -/
theorem C7_witness :
    ((33 : Int) - (String.length "01234567890123456789012345678901234567890") < 0
      ∧ renderRLine sampleRectIcons
          (.top "01234567890123456789012345678901234567890" "n") =
        some ("01234567890123456789012345678901234567890" ++ sampleRectIcons.top_left_corner
          ++ "n" ++ sampleRectIcons.top_right_corner))
    ∧ ((40 : Int) - (String.length "01234567890123456789012345678901234567890")
          - (String.length "n") - 2 < 0
      ∧ renderRLine sampleRectIcons
          (.branch "01234567890123456789012345678901234567890" "n") =
        some ("01234567890123456789012345678901234567890" ++ sampleRectIcons.branch_icon
          ++ "n" ++ sampleRectIcons.left_branch_icon))
    ∧ (pyLen (JValue.str "n") = some 1
      ∧ (40 : Int) - (String.length "01234567890123456789012345678901234567890")
          - (1 : Nat) - 3 < 0
      ∧ renderRLine sampleRectIcons
          (.leaf "01234567890123456789012345678901234567890" (JValue.str "n")) =
        some ("01234567890123456789012345678901234567890" ++ sampleRectIcons.leaf_icon
          ++ " " ++ pyStr (JValue.str "n") ++ sampleRectIcons.left_branch_icon))
    ∧ ((40 : Int) - (String.length "01234567890123456789012345678901234567890") < 0
      ∧ renderRLine sampleRectIcons
          (.bottom "01234567890123456789012345678901234567890") =
        some ("01234567890123456789012345678901234567890" ++ sampleRectIcons.bottom_left_corner
          ++ sampleRectIcons.bottom_right_corner)) :=
  ⟨⟨by decide,
    (C7_negative_repeat_clamps sampleRectIcons
      "01234567890123456789012345678901234567890" "n" (JValue.str "n") 1).1 (by decide)⟩,
   ⟨by decide,
    (C7_negative_repeat_clamps sampleRectIcons
      "01234567890123456789012345678901234567890" "n" (JValue.str "n") 1).2.1 (by decide)⟩,
   ⟨by decide, by decide,
    (C7_negative_repeat_clamps sampleRectIcons
      "01234567890123456789012345678901234567890" "n" (JValue.str "n") 1).2.2.1
      (by decide) (by decide)⟩,
   ⟨by decide,
    (C7_negative_repeat_clamps sampleRectIcons
      "01234567890123456789012345678901234567890" "n" (JValue.str "n") 1).2.2.2 (by decide)⟩⟩

/-- Witness for C5 on the forest built from `{"a": "v"}` (string leaf
name, so rendering completes) with the sample glyph family. -/
theorem C5_witness :
    buildForest [("a", JValue.str "v")] =
      some [Node.container "a" 0 [Node.leaf (.str "a: v")]]
    ∧ ([Node.container "a" 0 [Node.leaf (.str "a: v")]] : List Node) ≠ []
    ∧ (∀ r ∈ ([Node.container "a" 0 [Node.leaf (.str "a: v")]] : List Node),
        rectOk r = true)
    ∧ ((displayRectEvents sampleRectIcons
          [Node.container "a" 0 [Node.leaf (.str "a: v")]]).2 = true
      ∧ (displayRectEvents sampleRectIcons
          [Node.container "a" 0 [Node.leaf (.str "a: v")]]).1.countP
            (fun l => isBottomLine l) = 1
      ∧ (displayRectEvents sampleRectIcons
          [Node.container "a" 0 [Node.leaf (.str "a: v")]]).1.getLast? =
            some (RLine.bottom "")
      ∧ ∀ r ∈ ([Node.container "a" 0 [Node.leaf (.str "a: v")]] : List Node),
          (rectDraw sampleRectIcons r "" true false false).1.countP
            (fun l => isBottomLine l) = 0) := by
  have hb : buildForest [("a", JValue.str "v")] =
      some [Node.container "a" 0 [Node.leaf (.str "a: v")]] := by
    rw [buildForest_cons, buildForest_nil]
    simp [buildTree, pyStr]
  have hok : ∀ r ∈ ([Node.container "a" 0 [Node.leaf (.str "a: v")]] : List Node),
      rectOk r = true := by
    intro r hr
    simp only [List.mem_singleton] at hr
    subst hr
    simp [rectOk, rectOkList, pyLen]
  exact ⟨hb, by simp, hok,
    C5_single_bottom_edge sampleRectIcons [("a", JValue.str "v")] _ hb (by simp) hok⟩

/-- A terminal (non-object, non-array) value counts as exactly one
scalar. -/
theorem scalarCount_scalar (v : JValue) (h : isObjOrArr v = false) :
    scalarCount v = 1 := by
  cases v <;> simp [isObjOrArr, scalarCount] at h ⊢

/-- Member values of a tame object are tame. -/
theorem tameDict_mem (kvs : List (String × JValue)) (h : tameDict kvs = true) :
    ∀ p ∈ kvs, tame p.2 = true := by
  induction kvs with
  | nil => intro p hp; simp at hp
  | cons q rest ih =>
    cases q with
    | mk a b =>
      simp only [tameDict, Bool.and_eq_true] at h
      intro p hp
      rcases List.mem_cons.mp hp with rfl | htail
      · exact h.1
      · exact ih h.2 p htail

/-- Elements of a tame array are tame array elements. -/
theorem tameItems_mem (items : List JValue) (h : tameItems items = true) :
    ∀ it ∈ items, tameArrItem it = true := by
  induction items with
  | nil => intro it hit; simp at hit
  | cons x rest ih =>
    simp only [tameItems, Bool.and_eq_true] at h
    intro it hit
    rcases List.mem_cons.mp hit with rfl | htail
    · exact h.1
    · exact ih h.2 it htail

/-- The object-member loop of `build_tree` succeeds on tame member
values and produces exactly one Leaf per reachable terminal scalar,
assuming the statement already holds (`IH`) for each strictly smaller
member value. -/
theorem buildDictChildren_tame (mB : Nat)
    (IH : ∀ v : JValue, sizeOf v ≤ mB → tame v = true → ∀ (k : String) (lvl : Nat),
      ∃ n, buildTree (.obj [(k, v)]) lvl = some n ∧ countLeaves n = scalarCount v) :
    ∀ (kvs : List (String × JValue)) (lvl : Nat),
      (∀ p ∈ kvs, sizeOf p.2 ≤ mB ∧ tame p.2 = true) →
      ∃ cs, buildDictChildren kvs lvl = some cs ∧
        countLeavesList cs = scalarCountDict kvs := by
  intro kvs
  induction kvs with
  | nil =>
    intro lvl h
    exact ⟨[], by simp [buildDictChildren], by simp [countLeavesList, scalarCountDict]⟩
  | cons p rest ihl =>
    intro lvl h
    obtain ⟨cs, hcs, hcount⟩ := ihl lvl (fun q hq => h q (by simp [hq]))
    cases p with
    | mk sk sv =>
      obtain ⟨hpsize, hptame⟩ := h (sk, sv) (by simp)
      by_cases hobj : isObjOrArr sv = true
      · obtain ⟨n, hn, hcnt⟩ := IH sv hpsize hptame sk (lvl + 1)
        refine ⟨n :: cs, ?_, ?_⟩
        · simp [buildDictChildren, hobj, hn, hcs]
        · simp [countLeavesList, scalarCountDict, hcnt, hcount]
      · have hsv : isObjOrArr sv = false := by simpa using hobj
        refine ⟨Node.leaf (.str (sk ++ ": " ++ pyStr sv)) :: cs, ?_, ?_⟩
        · simp [buildDictChildren, hsv, hcs]
        · simp [countLeavesList, scalarCountDict, countLeaves, hcount,
            scalarCount_scalar sv hsv]

/-- The array-item loop of `build_tree` succeeds on tame items and
produces exactly one Leaf per reachable terminal scalar, assuming the
statement already holds (`IH`) for values strictly smaller than each
item. -/
theorem buildListChildren_tame (mB : Nat)
    (IH : ∀ v : JValue, sizeOf v ≤ mB → tame v = true → ∀ (k : String) (lvl : Nat),
      ∃ n, buildTree (.obj [(k, v)]) lvl = some n ∧ countLeaves n = scalarCount v) :
    ∀ (items : List JValue) (lvl : Nat),
      (∀ it ∈ items, sizeOf it ≤ mB ∧ tameArrItem it = true) →
      ∃ cs, buildListChildren items lvl = some cs ∧
        countLeavesList cs = scalarCountList items := by
  intro items
  induction items with
  | nil =>
    intro lvl h
    exact ⟨[], by simp [buildListChildren], by simp [countLeavesList, scalarCountList]⟩
  | cons item rest ihl =>
    intro lvl h
    obtain ⟨cs, hcs, hcount⟩ := ihl lvl (fun q hq => h q (by simp [hq]))
    obtain ⟨hisize, hitame⟩ := h item (by simp)
    cases item with
    | obj kvs1 =>
      cases kvs1 with
      | nil => simp [tameArrItem] at hitame
      | cons q1 rest1 =>
        cases rest1 with
        | cons q2 rest2 => simp [tameArrItem] at hitame
        | nil =>
          cases q1 with
          | mk k1 v1 =>
            have hv1tame : tame v1 = true := by simpa [tameArrItem] using hitame
            have hv1size : sizeOf v1 ≤ mB := by
              have : sizeOf v1 < sizeOf (JValue.obj [(k1, v1)]) := by
                simp
                omega
              omega
            obtain ⟨n, hn, hcnt⟩ := IH v1 hv1size hv1tame k1 (lvl + 1)
            refine ⟨n :: cs, ?_, ?_⟩
            · simp [buildListChildren, isObjOrArr, hn, hcs]
            · simp [countLeavesList, scalarCountList, scalarCount, scalarCountDict,
                hcnt, hcount]
    | arr xs => simp [tameArrItem] at hitame
    | str sv =>
      refine ⟨Node.leaf (JValue.str sv) :: cs, ?_, ?_⟩
      · simp [buildListChildren, isObjOrArr, hcs]
      · simp [countLeavesList, scalarCountList, countLeaves, scalarCount, hcount]
    | num nv =>
      refine ⟨Node.leaf (JValue.num nv) :: cs, ?_, ?_⟩
      · simp [buildListChildren, isObjOrArr, hcs]
      · simp [countLeavesList, scalarCountList, countLeaves, scalarCount, hcount]
    | bool bv =>
      refine ⟨Node.leaf (JValue.bool bv) :: cs, ?_, ?_⟩
      · simp [buildListChildren, isObjOrArr, hcs]
      · simp [countLeavesList, scalarCountList, countLeaves, scalarCount, hcount]
    | null =>
      refine ⟨Node.leaf JValue.null :: cs, ?_, ?_⟩
      · simp [buildListChildren, isObjOrArr, hcs]
      · simp [countLeavesList, scalarCountList, countLeaves, scalarCount, hcount]

/-- On a tame value `v`, building the singleton `{k: v}` succeeds and
the resulting tree carries exactly one Leaf per terminal scalar
reachable from `v`. -/
theorem build_tame (v : JValue) (ht : tame v = true) (k : String) (lvl : Nat) :
    ∃ n, buildTree (.obj [(k, v)]) lvl = some n ∧ countLeaves n = scalarCount v := by
  have H : ∀ m, ∀ v : JValue, sizeOf v ≤ m → tame v = true →
      ∀ (k : String) (lvl : Nat),
      ∃ n, buildTree (.obj [(k, v)]) lvl = some n ∧ countLeaves n = scalarCount v := by
    intro m
    induction m with
    | zero =>
      intro v h
      exfalso
      cases v <;> simp at h <;> omega
    | succ m ih =>
      intro v hv ht k lvl
      cases v with
      | obj kvs =>
        have hdict : tameDict kvs = true := by simpa [tame] using ht
        have hprem : ∀ p ∈ kvs, sizeOf p.2 ≤ m ∧ tame p.2 = true := by
          intro p hp
          refine ⟨?_, tameDict_mem kvs hdict p hp⟩
          have h1 : sizeOf p < sizeOf kvs := List.sizeOf_lt_of_mem hp
          have h2 : sizeOf p.2 < sizeOf p := by
            cases p with
            | mk a b => simp
          have h3 : sizeOf (JValue.obj kvs) = 1 + sizeOf kvs := by simp
          omega
        obtain ⟨cs, hcs, hcnt⟩ := buildDictChildren_tame m ih kvs lvl hprem
        refine ⟨Node.container k lvl cs, ?_, ?_⟩
        · simp [buildTree, hcs]
        · simp [countLeaves, hcnt, scalarCount]
      | arr items =>
        have hitems : tameItems items = true := by simpa [tame] using ht
        have hprem : ∀ it ∈ items, sizeOf it ≤ m ∧ tameArrItem it = true := by
          intro it hit
          refine ⟨?_, tameItems_mem items hitems it hit⟩
          have h1 : sizeOf it < sizeOf items := List.sizeOf_lt_of_mem hit
          have h3 : sizeOf (JValue.arr items) = 1 + sizeOf items := by simp
          omega
        obtain ⟨cs, hcs, hcnt⟩ := buildListChildren_tame m ih items lvl hprem
        refine ⟨Node.container k lvl cs, ?_, ?_⟩
        · simp [buildTree, hcs]
        · simp [countLeaves, hcnt, scalarCount]
      | str s =>
        refine ⟨Node.container k lvl [Node.leaf (.str (k ++ ": " ++ pyStr (.str s)))], ?_, ?_⟩
        · simp [buildTree]
        · simp [countLeaves, countLeavesList, scalarCount]
      | num n =>
        refine ⟨Node.container k lvl [Node.leaf (.str (k ++ ": " ++ pyStr (.num n)))], ?_, ?_⟩
        · simp [buildTree]
        · simp [countLeaves, countLeavesList, scalarCount]
      | bool b =>
        refine ⟨Node.container k lvl [Node.leaf (.str (k ++ ": " ++ pyStr (.bool b)))], ?_, ?_⟩
        · simp [buildTree]
        · simp [countLeaves, countLeavesList, scalarCount]
      | null =>
        refine ⟨Node.container k lvl [Node.leaf (.str (k ++ ": " ++ pyStr .null))], ?_, ?_⟩
        · simp [buildTree]
        · simp [countLeaves, countLeavesList, scalarCount]
  exact H (sizeOf v) v le_rfl ht k lvl

/-- C3 (amended): for every parsed JSON top-level object that is tame —
every array element reachable from it is a scalar or a single-key
object (the shapes `build_tree` flattens or fails on are excluded) —
the forest builds successfully and its total Leaf count equals the
number of terminal scalars reachable from the object. -/
theorem C3_leaf_count_equals_scalar_count (kvs : List (String × JValue))
    (ht : tame (.obj kvs) = true) :
    ∃ forest, buildForest kvs = some forest ∧
      countLeavesList forest = scalarCount (.obj kvs) := by
  have hdict : tameDict kvs = true := by simpa [tame] using ht
  have hmem := tameDict_mem kvs hdict
  have H : ∀ (kvs2 : List (String × JValue)), (∀ p ∈ kvs2, tame p.2 = true) →
      ∃ forest, buildForest kvs2 = some forest ∧
        countLeavesList forest = scalarCountDict kvs2 := by
    intro kvs2
    induction kvs2 with
    | nil =>
      intro h
      exact ⟨[], buildForest_nil, by simp [countLeavesList, scalarCountDict]⟩
    | cons p rest ih =>
      intro h
      obtain ⟨forest2, hforest2, hcnt2⟩ := ih (fun q hq => h q (by simp [hq]))
      cases p with
      | mk k0 v0 =>
        obtain ⟨n, hn, hcnt⟩ := build_tame v0 (h (k0, v0) (by simp)) k0 0
        refine ⟨n :: forest2, ?_, ?_⟩
        · rw [buildForest_cons, hn, hforest2]
          rfl
        · simp [countLeavesList, scalarCountDict, hcnt, hcnt2]
  obtain ⟨forest, hf, hc⟩ := H kvs hmem
  exact ⟨forest, hf, by simp [scalarCount, hc]⟩

/-- C3 (counterexample to the claim as stated): for the value
`{"a": [[1, 2], {"x": 1, "y": 2}]}` the built forest has 2 Leaf nodes —
the nested array `[1, 2]` collapses into a single Leaf and the
multi-key object item drops `"y": 2` — while the value has 4 reachable
terminal scalars. -/
theorem C3_counterexample :
    (buildForest
        [("a", .arr [.arr [.num 1, .num 2],
                     .obj [("x", .num 1), ("y", .num 2)]])]).map countLeavesList
      = some 2
    ∧ scalarCount (.obj [("a", .arr [.arr [.num 1, .num 2],
                          .obj [("x", .num 1), ("y", .num 2)]])]) = 4 := by
  constructor
  · rw [buildForest_cons, buildForest_nil]
    simp [buildTree, buildListChildren, isObjOrArr, countLeaves, countLeavesList]
  · simp [scalarCount, scalarCountDict, scalarCountList]

/-- Witness for C3 on the tame value `{"a": ["s", {"b": "t"}]}`. -/
theorem C3_witness :
    tame (.obj [("a", .arr [.str "s", .obj [("b", .str "t")]])]) = true
    ∧ ∃ forest,
        buildForest [("a", JValue.arr [.str "s", .obj [("b", .str "t")]])] = some forest
        ∧ countLeavesList forest =
            scalarCount (.obj [("a", .arr [.str "s", .obj [("b", .str "t")]])]) := by
  have ht : tame (.obj [("a", JValue.arr [.str "s", .obj [("b", .str "t")]])]) = true := by
    simp [tame, tameDict, tameItems, tameArrItem]
  exact ⟨ht, C3_leaf_count_equals_scalar_count _ ht⟩
